import Mathlib

/-!
Verification of the argument buffer and tokenizer of `src/args.rs`.

The development shallowly embeds the Rust code: OS strings become an
inductive that records whether UTF-8 decoding succeeds, `Vec<Arg>` becomes
`List Arg`, `usize` becomes `Nat` with `usize::MAX` as an explicit
sentinel, and functions that can panic (the tokenizer's single-character
assertion, `format!` on a `Word` without text) return `Option`.
-/

/-- Text is modelled as a list of characters. -/
abbrev Str := List Char

/-- An OS-native string: either valid UTF-8 text or undecodable raw bytes. -/
inductive OsString where
  | valid : Str → OsString
  | invalid : List Nat → OsString
deriving DecidableEq, Repr

/-- `OsString::to_str`: the text form, when decoding succeeds. -/
def OsString.toStr : OsString → Option Str
  | .valid s => some s
  | .invalid _ => none

/-- `Word`: an OS string with its UTF-8 equivalent when the encoding is UTF-8. -/
structure Word where
  utf8 : Option Str
  os : OsString
deriving DecidableEq, Repr

/-- `Arg`: a preprocessed command line argument. -/
inductive Arg where
  | short : Char → Arg
  | long : Str → Arg
  | word : Word → Arg
deriving DecidableEq, Repr

/-- `Arg::is_short`. -/
def Arg.is_short (a : Arg) (c : Char) : Bool :=
  match a with
  | .short x => x = c
  | .long _ => false
  | .word _ => false

/-- `Arg::is_long`. -/
def Arg.is_long (a : Arg) (l : Str) : Bool :=
  match a with
  | .long x => x = l
  | .short _ => false
  | .word _ => false

/-- The `Display` instance for `Arg`; a `Word` without a UTF-8 form makes
formatting fail (`fmt::Error`), modelled by `none`. -/
def Arg.display : Arg → Option Str
  | .short c => some ['-', c]
  | .long l => some ('-' :: '-' :: l)
  | .word w => w.utf8

/-- `str::split_once('=')`: split at the first `=` when present. -/
def splitOnceEq : Str → Option (Str × Str)
  | [] => none
  | c :: rest =>
    if c = '=' then some ([], rest)
    else
      match splitOnceEq rest with
      | some p => some (c :: p.1, p.2)
      | none => none

/-- The byte length of UTF-8 text, as Rust's `str::len` computes it. -/
def utf8Len (s : Str) : Nat := (s.map Char.utf8Size).sum

/-- `str::strip_prefix("--")`. -/
def stripDashDash (t : Str) : Option Str :=
  match t with
  | [] => none
  | [_] => none
  | c1 :: c2 :: body => if c1 = '-' then if c2 = '-' then some body else none else none

/-- `str::strip_prefix('-')`. -/
def stripDash (t : Str) : Option Str :=
  match t with
  | [] => none
  | c :: body => if c = '-' then some body else none

/-- `push_vec`: turn one raw argument into zero or more tokens appended to
`vec`, threading the `pos_only` mode flag.  `none` models the panic of the
`assert_eq!(key.len(), 1, ..)` for a `-key=value` argument. -/
def push_vec (vec : List Arg) (os : OsString) (posOnly : Bool) : Option (List Arg × Bool) :=
  match posOnly, os.toStr with
  | true, v => some (vec ++ [Arg.word ⟨v, os⟩], true)
  | false, none => some (vec ++ [Arg.word ⟨none, os⟩], false)
  | false, some t =>
    if t = ['-', '-'] then some (vec, true)
    else
      match stripDashDash t with
      | some body =>
        match splitOnceEq body with
        | some p =>
            some (vec ++ [Arg.long p.1, Arg.word ⟨some p.2, OsString.valid p.2⟩], false)
        | none => some (vec ++ [Arg.long body], false)
      | none =>
        match stripDash t with
        | some body =>
          match splitOnceEq body with
          | some p =>
            if utf8Len p.1 = 1 then
              match p.1 with
              | k :: _ =>
                  some (vec ++ [Arg.short k, Arg.word ⟨some p.2, OsString.valid p.2⟩], false)
              | [] => none
            else none
          | none => some (vec ++ body.map Arg.short, false)
        | none => some (vec ++ [Arg.word ⟨some t, os⟩], false)

/-- The tokenizer loop of `From<&[&OsStr]> for Args` (and `From<&[&str]>`),
starting from an arbitrary mode flag and accumulator. -/
def tokenizeFrom (posOnly : Bool) (vec : List Arg) : List OsString → Option (List Arg × Bool)
  | [] => some (vec, posOnly)
  | x :: xs =>
    match push_vec vec x posOnly with
    | some r => tokenizeFrom r.2 r.1 xs
    | none => none

/-- Tokenize a raw argument sequence, `pos_only` starting false. -/
def tokenize (xs : List OsString) : Option (List Arg) :=
  (tokenizeFrom false [] xs).map Prod.fst

/-- Modelled from the spec: the crate-level `Error` type lives outside the
provided sources; §7 distinguishes recoverable absence (returned as
`Ok(None)`/`false` by the primitives below) from fatal user-visible errors,
and `args.rs` only ever constructs the user-visible `Error::Stderr(text)`
variant. -/
inductive Error where
  | Stderr : Str → Error
deriving DecidableEq, Repr

/-- `usize::MAX`, the sentinel initial value of `Args.head`. -/
def USIZE_MAX : Nat := 2 ^ 64 - 1

/-- `Args`: the token sequence, the removal bitmap, the count of remaining
tokens, the most recently consumed word, and the leftmost removed index. -/
structure Args where
  items : List Arg
  removed : List Bool
  remaining : Nat
  current : Option Word
  head : Nat
deriving DecidableEq, Repr

/-- `From<Vec<Arg>> for Args`. -/
def Args.fromVec (vec : List Arg) : Args :=
  { items := vec
    removed := List.replicate vec.length false
    remaining := vec.length
    current := none
    head := USIZE_MAX }

/-- `Args::remove`. -/
def Args.remove (a : Args) (index : Nat) : Args :=
  if a.removed.getD index true then
    { a with removed := a.removed.set index true }
  else
    { a with
      removed := a.removed.set index true
      remaining := a.remaining - 1
      head := min a.head index }

/-- The elements produced by `ArgsIter` starting at position `n`. -/
def iterFrom : Nat → List Arg → List Bool → List (Nat × Arg)
  | _, _, [] => []
  | _, [], _ :: _ => []
  | n, x :: xs, r :: rs =>
    if r then iterFrom (n + 1) xs rs else (n, x) :: iterFrom (n + 1) xs rs

/-- `Args::items_iter`: the (index, token) pairs not yet removed, in order. -/
def Args.items_iter (a : Args) : List (Nat × Arg) :=
  iterFrom 0 a.items a.removed

/-- `Args::peek`. -/
def Args.peek (a : Args) : Option Arg :=
  (a.items_iter).head?.map (fun q => q.2)

/-- `Args::take_flag`. -/
def Args.take_flag (a : Args) (p : Arg → Bool) : Bool × Args :=
  match (a.items_iter).dropWhile (fun q => !p q.2) with
  | (ix, _) :: _ => (true, a.remove ix)
  | [] => (false, a)

/-- `Args::take_arg`.  The outer `Option` models the panic of `format!`
when an error message would render a `Word` that has no UTF-8 form. -/
def Args.take_arg (a : Args) (p : Arg → Bool) : Option (Except Error (Option Word) × Args) :=
  match (a.items_iter).dropWhile (fun q => !p q.2) with
  | [] => some (Except.ok none, a)
  | (key_ix, arg) :: rest =>
    match rest with
    | (val_ix, Arg.word w) :: _ =>
        some (Except.ok (some w), (({ a with current := some w }).remove key_ix).remove val_ix)
    | (_, flag) :: _ =>
        match arg.display, flag.display with
        | some s1, some s2 =>
            some (Except.error
              (Error.Stderr (s1 ++ (" requires an argument, got flag ").data ++ s2)), a)
        | _, _ => none
    | [] =>
        match arg.display with
        | some s1 =>
            some (Except.error (Error.Stderr (s1 ++ (" requires an argument").data)), a)
        | none => none

/-- `Args::take_positional_word`. -/
def Args.take_positional_word (a : Args) : Option (Except Error (Option Word) × Args) :=
  match a.items_iter with
  | (ix, Arg.word w) :: _ =>
      some (Except.ok (some w), ({ a with current := some w }).remove ix)
  | (_, arg) :: _ =>
      match arg.display with
      | some s =>
          some (Except.error (Error.Stderr (("Expected an argument, got ").data ++ s)), a)
      | none => none
  | [] => some (Except.ok none, a)

/-- `Args::take_cmd`. -/
def Args.take_cmd (a : Args) (w : Str) : Bool × Args :=
  match a.items_iter with
  | (ix, Arg.word wd) :: _ =>
      if wd.utf8 = some w then (true, a.remove ix) else (false, a)
  | _ => (false, a)

/-- Folding a sequence of `remove` calls over a buffer. -/
def applyRemoves (a : Args) (ixs : List Nat) : Args :=
  ixs.foldl Args.remove a

/-- Render each token back to text via its `Display` instance. -/
def renderArgs : List Arg → Option (List Str)
  | [] => some []
  | t :: ts =>
    match t.display, renderArgs ts with
    | some s, some ss => some (s :: ss)
    | _, _ => none

/-- Render a token list and feed the rendered text back to the tokenizer. -/
def retokenizeRendered (ts : List Arg) : Option (List Arg) :=
  (renderArgs ts).bind (fun ss => tokenize (ss.map OsString.valid))

/-- The number of false entries of a removal bitmap. -/
def countFalse (l : List Bool) : Nat := l.count false

/-- Tokens whose rendering survives a tokenizer round trip: a short other
than the characters `-` and `=`, a nonempty long without `=`, or a word
whose text matches its OS form and does not begin with `-`. -/
def stableArg : Arg → Bool
  | .short c => decide (c ≠ '-' ∧ c ≠ '=')
  | .long l => decide (l ≠ [] ∧ '=' ∉ l)
  | .word w =>
    match w.utf8, w.os with
    | some t, OsString.valid t2 =>
      decide (t = t2) && (match t with
        | '-' :: _ => false
        | _ => true)
    | _, _ => false

/-- Bookkeeping invariant of a buffer whose lifetime removed exactly the
indices in `hist` (in order): the bitmap marks exactly `hist`, `remaining`
counts the false entries, and `head` is the running minimum of `hist`. -/
def ArgsInv (len : Nat) (hist : List Nat) (a : Args) : Prop :=
  a.removed.length = len
  ∧ (∀ i, i < len → (a.removed.getD i true = true ↔ i ∈ hist))
  ∧ a.remaining = countFalse a.removed
  ∧ a.head = hist.foldl min USIZE_MAX

/-! ### List helper lemmas -/

theorem listGetDSetSelf {α : Type} (l : List α) (i : Nat) (v d : α) (h : i < l.length) :
    (l.set i v).getD i d = v := by
  simp [List.getD_eq_getElem?_getD, List.getElem?_set_self h]

theorem listGetDSetNe {α : Type} (l : List α) (i j : Nat) (v d : α) (h : i ≠ j) :
    (l.set i v).getD j d = l.getD j d := by
  simp [List.getD_eq_getElem?_getD, List.getElem?_set_ne h]

theorem listGetDLtLength (l : List Bool) (i : Nat) (h : l.getD i true = false) :
    i < l.length := by
  rcases Nat.lt_or_ge i l.length with h' | h'
  · exact h'
  · rw [List.getD_eq_default _ _ h'] at h
    simp at h

theorem listSetTrueNoop (l : List Bool) (i : Nat) (h : l.getD i true = true) :
    l.set i true = l := by
  induction l generalizing i with
  | nil => rfl
  | cons b bs ih =>
    cases i with
    | zero => rw [List.getD_cons_zero] at h; simp [h]
    | succ n => rw [List.getD_cons_succ] at h; simp [List.set, ih n h]

theorem countFalseSet (l : List Bool) (i : Nat) (h : l.getD i true = false) :
    countFalse (l.set i true) + 1 = countFalse l := by
  induction l generalizing i with
  | nil => simp [List.getD] at h
  | cons b bs ih =>
    cases i with
    | zero =>
      rw [List.getD_cons_zero] at h
      subst h
      simp [countFalse, List.count_cons]
    | succ n =>
      rw [List.getD_cons_succ] at h
      simp only [countFalse, List.set, List.count_cons]
      have := ih n h
      simp only [countFalse] at this
      omega

theorem getDReplicateFalse (n i : Nat) (h : i < n) :
    (List.replicate n false).getD i true = false := by
  induction n generalizing i with
  | zero => omega
  | succ m ih =>
    cases i with
    | zero => rw [List.replicate_succ, List.getD_cons_zero]
    | succ k =>
      rw [List.replicate_succ, List.getD_cons_succ]
      exact ih k (by omega)

/-! ### Lemmas about the remaining-items iterator -/

theorem iterFromGe (xs : List Arg) :
    ∀ (rs : List Bool) (n : Nat) (q : Nat × Arg), q ∈ iterFrom n xs rs → n ≤ q.1 := by
  induction xs with
  | nil => intro rs n q hq; cases rs <;> simp [iterFrom] at hq
  | cons x xs ih =>
    intro rs n q hq
    cases rs with
    | nil => simp [iterFrom] at hq
    | cons r rs =>
      simp only [iterFrom] at hq
      by_cases hr : r
      · simp [hr] at hq
        have := ih rs (n + 1) q hq
        omega
      · simp [hr] at hq
        rcases hq with hq | hq
        · subst hq; simp
        · have := ih rs (n + 1) q hq
          omega

theorem iterFromRemoved (xs : List Arg) :
    ∀ (rs : List Bool) (n i : Nat) (x : Arg),
      (i, x) ∈ iterFrom n xs rs → rs.getD (i - n) true = false := by
  induction xs with
  | nil => intro rs n i x hq; cases rs <;> simp [iterFrom] at hq
  | cons y ys ih =>
    intro rs n i x hq
    cases rs with
    | nil => simp [iterFrom] at hq
    | cons r rs =>
      simp only [iterFrom] at hq
      by_cases hr : r
      · simp [hr] at hq
        have hge := iterFromGe ys rs (n + 1) (i, x) hq
        simp at hge
        have := ih rs (n + 1) i x hq
        have harith : i - n = (i - (n + 1)) + 1 := by omega
        rw [harith]
        simpa [List.getD] using this
      · simp [hr] at hq
        rcases hq with ⟨hi, _⟩ | hq
        · subst hi
          simp [List.getD, hr]
        · have hge := iterFromGe ys rs (n + 1) (i, x) hq
          simp at hge
          have := ih rs (n + 1) i x hq
          have harith : i - n = (i - (n + 1)) + 1 := by omega
          rw [harith]
          simpa [List.getD] using this

theorem iterFromPairwise (xs : List Arg) :
    ∀ (rs : List Bool) (n : Nat),
      List.Pairwise (fun p q => p.1 < q.1) (iterFrom n xs rs) := by
  induction xs with
  | nil => intro rs n; cases rs <;> simp [iterFrom]
  | cons x xs ih =>
    intro rs n
    cases rs with
    | nil => simp [iterFrom]
    | cons r rs =>
      simp only [iterFrom]
      by_cases hr : r
      · simp [hr]; exact ih rs (n + 1)
      · simp [hr]
        constructor
        · intro u v huv
          have := iterFromGe xs rs (n + 1) (u, v) huv
          simp at this
          omega
        · exact ih rs (n + 1)

theorem itemsIterRemoved (a : Args) (i : Nat) (x : Arg) (h : (i, x) ∈ a.items_iter) :
    a.removed.getD i true = false := by
  have := iterFromRemoved a.items a.removed 0 i x h
  simpa using this

theorem itemsIterPairwise (a : Args) :
    List.Pairwise (fun p q => p.1 < q.1) a.items_iter :=
  iterFromPairwise a.items a.removed 0

/-! ### Lemmas about `Args.remove` -/

theorem removeItems (a : Args) (i : Nat) : (a.remove i).items = a.items := by
  unfold Args.remove; split <;> rfl

theorem removeCurrent (a : Args) (i : Nat) : (a.remove i).current = a.current := by
  unfold Args.remove; split <;> rfl

theorem removeRemoved (a : Args) (i : Nat) :
    (a.remove i).removed = a.removed.set i true := by
  unfold Args.remove; split <;> rfl

theorem removeRemainingNew (a : Args) (i : Nat) (h : a.removed.getD i true = false) :
    (a.remove i).remaining = a.remaining - 1 := by
  unfold Args.remove; rw [h]; rfl

theorem removeHeadNew (a : Args) (i : Nat) (h : a.removed.getD i true = false) :
    (a.remove i).head = min a.head i := by
  unfold Args.remove; rw [h]; rfl

theorem removeNoop (a : Args) (i : Nat) (h : a.removed.getD i true = true) :
    a.remove i = a := by
  unfold Args.remove
  rw [h]
  simp [listSetTrueNoop a.removed i h]

/-! ### Claim theorems -/

/-- C2: whenever `take_flag`, `take_arg`, `take_positional_word` or
`take_cmd` does not succeed — recoverably (absence) or fatally (a
user-visible error) — the returned buffer equals the input buffer, so the
removal bitmap, `remaining`, `head` and `current` are all unchanged. -/
theorem claimC2FailureUnchanged :
    (∀ (a : Args) (p : Arg → Bool) (a2 : Args),
        a.take_flag p = (false, a2) → a2 = a)
  ∧ (∀ (a : Args) (p : Arg → Bool) (a2 : Args),
        a.take_arg p = some (Except.ok none, a2) → a2 = a)
  ∧ (∀ (a : Args) (p : Arg → Bool) (e : Error) (a2 : Args),
        a.take_arg p = some (Except.error e, a2) → a2 = a)
  ∧ (∀ (a a2 : Args),
        a.take_positional_word = some (Except.ok none, a2) → a2 = a)
  ∧ (∀ (a : Args) (e : Error) (a2 : Args),
        a.take_positional_word = some (Except.error e, a2) → a2 = a)
  ∧ (∀ (a : Args) (w : Str) (a2 : Args),
        a.take_cmd w = (false, a2) → a2 = a) := by
  refine ⟨?_, ?_, ?_, ?_, ?_, ?_⟩
  · intro a p a2 h
    unfold Args.take_flag at h
    split at h <;> simp_all
  · intro a p a2 h
    unfold Args.take_arg at h
    repeat' split at h
    all_goals simp_all
  · intro a p e a2 h
    unfold Args.take_arg at h
    repeat' split at h
    all_goals simp_all
  · intro a a2 h
    unfold Args.take_positional_word at h
    repeat' split at h
    all_goals simp_all
  · intro a e a2 h
    unfold Args.take_positional_word at h
    repeat' split at h
    all_goals simp_all
  · intro a w a2 h
    unfold Args.take_cmd at h
    repeat' split at h
    all_goals simp_all

/-- C1: `take_arg` scans the remaining tokens in order.  When nothing
matches the predicate it fails recoverably with the buffer unchanged; when
the first match at index `i` is followed by a remaining `Word`, both
indices are removed, `current` becomes that word, and the word is
returned; a following flag yields the fatal error
"flag requires an argument, got flag next"; no following token yields the
fatal error "flag requires an argument", both leaving the buffer
unchanged. -/
theorem claimC1TakeArg (a : Args) (p : Arg → Bool) :
    ((∀ q ∈ a.items_iter, p q.2 = false) →
        a.take_arg p = some (Except.ok none, a))
  ∧ (∀ i arg j w rest,
      (a.items_iter).dropWhile (fun q => !p q.2) = (i, arg) :: (j, Arg.word w) :: rest →
      ∃ a2, a.take_arg p = some (Except.ok (some w), a2)
        ∧ a2 = (({ a with current := some w }).remove i).remove j
        ∧ a2.items = a.items
        ∧ a2.current = some w
        ∧ a2.removed = (a.removed.set i true).set j true
        ∧ a2.removed.getD i true = true
        ∧ a2.removed.getD j true = true
        ∧ a2.remaining = a.remaining - 2)
  ∧ (∀ i arg j flag rest s1 s2,
      (a.items_iter).dropWhile (fun q => !p q.2) = (i, arg) :: (j, flag) :: rest →
      (∀ w, flag ≠ Arg.word w) →
      arg.display = some s1 → flag.display = some s2 →
      a.take_arg p = some (Except.error
        (Error.Stderr (s1 ++ (" requires an argument, got flag ").data ++ s2)), a))
  ∧ (∀ i arg s1,
      (a.items_iter).dropWhile (fun q => !p q.2) = [(i, arg)] →
      arg.display = some s1 →
      a.take_arg p = some (Except.error
        (Error.Stderr (s1 ++ (" requires an argument").data)), a)) := by
  refine ⟨?_, ?_, ?_, ?_⟩
  · intro hall
    have hnil : (a.items_iter).dropWhile (fun q => !p q.2) = [] := by
      rw [List.dropWhile_eq_nil_iff]
      intro x hx
      simp [hall x hx]
    unfold Args.take_arg
    rw [hnil]
  · intro i arg j w rest h
    have hsub : ((i, arg) :: (j, Arg.word w) :: rest).Sublist a.items_iter := by
      rw [← h]; exact List.dropWhile_sublist _
    have hmem1 : (i, arg) ∈ a.items_iter := List.Sublist.mem (by simp) hsub
    have hmem2 : (j, Arg.word w) ∈ a.items_iter := List.Sublist.mem (by simp) hsub
    have hri : a.removed.getD i true = false := itemsIterRemoved a i arg hmem1
    have hrj : a.removed.getD j true = false := itemsIterRemoved a j (Arg.word w) hmem2
    have hij : i < j := by
      have hpw := List.Pairwise.sublist hsub (itemsIterPairwise a)
      rcases List.pairwise_cons.mp hpw with ⟨hfst, _⟩
      exact hfst (j, Arg.word w) (by simp)
    have hilen : i < a.removed.length := listGetDLtLength a.removed i hri
    have hjlen : j < a.removed.length := listGetDLtLength a.removed j hrj
    set a0 : Args := { a with current := some w } with ha0
    have ha0r : a0.removed = a.removed := rfl
    refine ⟨(a0.remove i).remove j, ?_, rfl, ?_, ?_, ?_, ?_, ?_, ?_⟩
    · unfold Args.take_arg
      rw [h]
    · rw [removeItems, removeItems]
    · rw [removeCurrent, removeCurrent]
    · rw [removeRemoved, removeRemoved, ha0r]
    · rw [removeRemoved, removeRemoved, ha0r]
      rw [listGetDSetNe _ j i _ _ (by omega)]
      exact listGetDSetSelf a.removed i true true hilen
    · rw [removeRemoved, removeRemoved, ha0r]
      refine listGetDSetSelf _ j true true ?_
      rw [List.length_set]
      exact hjlen
    · have h1 : (a0.remove i).remaining = a.remaining - 1 := by
        rw [removeRemainingNew a0 i (by rw [ha0r]; exact hri)]
      have h2 : (a0.remove i).removed.getD j true = false := by
        rw [removeRemoved, ha0r, listGetDSetNe _ i j _ _ (by omega)]
        exact hrj
      rw [removeRemainingNew _ j h2, h1]
      omega
  · intro i arg j flag rest s1 s2 h hw hs1 hs2
    cases flag with
    | word w => exact absurd rfl (hw w)
    | short c =>
      simp only [Arg.display] at hs2
      injection hs2 with hs2
      subst hs2
      unfold Args.take_arg
      rw [h]
      simp only [hs1]
      rfl
    | long l =>
      simp only [Arg.display] at hs2
      injection hs2 with hs2
      subst hs2
      unfold Args.take_arg
      rw [h]
      simp only [hs1]
      rfl
  · intro i arg s1 h hs1
    unfold Args.take_arg
    rw [h]
    simp only [hs1]

/-- C8: `take_positional_word` succeeds exactly when the first remaining
token is a `Word`: it removes it, sets `current`, and returns it.  A first
remaining flag yields the fatal error "Expected an argument, got flag",
and an empty buffer yields recoverable absence, both leaving the buffer
unchanged. -/
theorem claimC8TakePositional (a : Args) :
    (∀ i w rest, a.items_iter = (i, Arg.word w) :: rest →
        a.take_positional_word
          = some (Except.ok (some w), ({ a with current := some w }).remove i))
  ∧ (∀ i arg rest s, a.items_iter = (i, arg) :: rest → (∀ w, arg ≠ Arg.word w) →
        arg.display = some s →
        a.take_positional_word
          = some (Except.error (Error.Stderr (("Expected an argument, got ").data ++ s)), a))
  ∧ (a.items_iter = [] → a.take_positional_word = some (Except.ok none, a))
  ∧ ((∃ w a2, a.take_positional_word = some (Except.ok (some w), a2))
      ↔ (∃ i w rest, a.items_iter = (i, Arg.word w) :: rest)) := by
  refine ⟨?_, ?_, ?_, ?_⟩
  · intro i w rest h
    unfold Args.take_positional_word
    rw [h]
  · intro i arg rest s h hw hs
    cases arg with
    | word w => exact absurd rfl (hw w)
    | short c =>
      simp only [Arg.display] at hs
      injection hs with hs
      subst hs
      unfold Args.take_positional_word
      rw [h]
      rfl
    | long l =>
      simp only [Arg.display] at hs
      injection hs with hs
      subst hs
      unfold Args.take_positional_word
      rw [h]
      rfl
  · intro h
    unfold Args.take_positional_word
    rw [h]
  · constructor
    · rintro ⟨w, a2, h⟩
      cases hit : a.items_iter with
      | nil =>
        unfold Args.take_positional_word at h
        rw [hit] at h
        simp at h
      | cons q qs =>
        rcases q with ⟨i, arg⟩
        cases arg with
        | word wd => exact ⟨i, wd, qs, rfl⟩
        | short c =>
          unfold Args.take_positional_word at h
          rw [hit] at h
          simp [Arg.display] at h
        | long l =>
          unfold Args.take_positional_word at h
          rw [hit] at h
          simp [Arg.display] at h
    · rintro ⟨i, w, rest, hit⟩
      refine ⟨w, ({ a with current := some w }).remove i, ?_⟩
      unfold Args.take_positional_word
      rw [hit]

/-- C10: `take_cmd` succeeds — removing exactly the first remaining token —
only when that token is a `Word` whose UTF-8 text equals the literal; a
first word without a UTF-8 form matches no name, and every non-matching
case returns false with the buffer unchanged. -/
theorem claimC10TakeCmd (a : Args) (w : Str) :
    ((a.take_cmd w).1 = true
      ↔ ∃ i wd rest, a.items_iter = (i, Arg.word wd) :: rest ∧ wd.utf8 = some w)
  ∧ (∀ i wd rest, a.items_iter = (i, Arg.word wd) :: rest → wd.utf8 = some w →
        a.take_cmd w = (true, a.remove i))
  ∧ ((a.take_cmd w).1 = false → (a.take_cmd w).2 = a)
  ∧ (∀ i wd rest, a.items_iter = (i, Arg.word wd) :: rest → wd.utf8 = none →
        (a.take_cmd w).1 = false) := by
  refine ⟨?_, ?_, ?_, ?_⟩
  · constructor
    · intro h1
      cases hit : a.items_iter with
      | nil =>
        unfold Args.take_cmd at h1
        rw [hit] at h1
        simp at h1
      | cons q qs =>
        rcases q with ⟨i, arg⟩
        cases arg with
        | word wd =>
          by_cases hu : wd.utf8 = some w
          · exact ⟨i, wd, qs, rfl, hu⟩
          · unfold Args.take_cmd at h1
            rw [hit] at h1
            simp [hu] at h1
        | short c =>
          unfold Args.take_cmd at h1
          rw [hit] at h1
          simp at h1
        | long l =>
          unfold Args.take_cmd at h1
          rw [hit] at h1
          simp at h1
    · rintro ⟨i, wd, rest, hit, hu⟩
      unfold Args.take_cmd
      rw [hit]
      simp [hu]
  · intro i wd rest hit hu
    unfold Args.take_cmd
    rw [hit]
    simp [hu]
  · intro h1
    cases hit : a.items_iter with
    | nil =>
      unfold Args.take_cmd
      rw [hit]
    | cons q qs =>
      rcases q with ⟨i, arg⟩
      cases arg with
      | word wd =>
        by_cases hu : wd.utf8 = some w
        · unfold Args.take_cmd at h1
          rw [hit] at h1
          simp [hu] at h1
        · unfold Args.take_cmd
          rw [hit]
          simp [hu]
      | short c =>
        unfold Args.take_cmd
        rw [hit]
      | long l =>
        unfold Args.take_cmd
        rw [hit]
  · intro i wd rest hit hu
    unfold Args.take_cmd
    rw [hit]
    simp [hu]

/-! ### Minimum-fold lemmas for the head field -/

theorem foldlMinLeInit (l : List Nat) : ∀ a : Nat, l.foldl min a ≤ a := by
  induction l with
  | nil => intro a; simp
  | cons x xs ih =>
    intro a
    have h1 := ih (min a x)
    simp only [List.foldl_cons]
    omega

theorem foldlMinLeMem (l : List Nat) : ∀ (a x : Nat), x ∈ l → l.foldl min a ≤ x := by
  induction l with
  | nil => intro a x hx; simp at hx
  | cons y ys ih =>
    intro a x hx
    rcases List.mem_cons.mp hx with hx | hx
    · subst hx
      have h1 := foldlMinLeInit ys (min a x)
      simp only [List.foldl_cons]
      omega
    · exact ih (min a y) x hx

theorem foldlMinMemOr (l : List Nat) : ∀ a : Nat, l.foldl min a = a ∨ l.foldl min a ∈ l := by
  induction l with
  | nil => intro a; left; rfl
  | cons x xs ih =>
    intro a
    rcases ih (min a x) with h | h
    · simp only [List.foldl_cons, h]
      rcases Nat.le_total a x with hle | hle
      · left; omega
      · right
        have hx : min a x = x := by omega
        rw [hx]
        exact List.mem_cons_self x xs
    · right
      simp only [List.foldl_cons]
      exact List.mem_cons_of_mem x h

/-! ### The bookkeeping invariant under removal sequences -/

theorem argsInvStep (len : Nat) (hist : List Nat) (a : Args) (ix : Nat)
    (hInv : ArgsInv len hist a) (hix : ix < len) :
    ArgsInv len (hist ++ [ix]) (a.remove ix) := by
  obtain ⟨hlen, hmem, hcount, hhead⟩ := hInv
  by_cases hr : a.removed.getD ix true = true
  · have hnoop : a.remove ix = a := removeNoop a ix hr
    have hin : ix ∈ hist := (hmem ix hix).mp hr
    refine ⟨by rw [hnoop]; exact hlen, ?_, by rw [hnoop]; exact hcount, ?_⟩
    · intro i hi
      rw [hnoop]
      rw [hmem i hi]
      simp only [List.mem_append, List.mem_singleton]
      constructor
      · intro h; left; exact h
      · rintro (h | h)
        · exact h
        · subst h; exact hin
    · rw [hnoop, hhead, List.foldl_append]
      simp only [List.foldl_cons, List.foldl_nil]
      have := foldlMinLeMem hist USIZE_MAX ix hin
      omega
  · have hr' : a.removed.getD ix true = false := by
      cases h : a.removed.getD ix true
      · rfl
      · exact absurd h hr
    refine ⟨?_, ?_, ?_, ?_⟩
    · rw [removeRemoved, List.length_set]
      exact hlen
    · intro i hi
      rw [removeRemoved]
      by_cases hieq : i = ix
      · subst hieq
        have hilen : i < a.removed.length := by omega
        rw [listGetDSetSelf a.removed i true true hilen]
        simp
      · rw [listGetDSetNe a.removed ix i true true (fun h => hieq h.symm)]
        rw [hmem i hi]
        simp only [List.mem_append, List.mem_singleton]
        constructor
        · intro h; left; exact h
        · rintro (h | h)
          · exact h
          · exact absurd h hieq
    · rw [removeRemainingNew a ix hr', removeRemoved]
      have := countFalseSet a.removed ix hr'
      omega
    · rw [removeHeadNew a ix hr', hhead, List.foldl_append]
      simp only [List.foldl_cons, List.foldl_nil]

theorem argsInvFold (len : Nat) (ixs : List Nat) :
    ∀ (hist : List Nat) (a : Args), ArgsInv len hist a →
      (∀ ix ∈ ixs, ix < len) → ArgsInv len (hist ++ ixs) (applyRemoves a ixs) := by
  induction ixs with
  | nil => intro hist a hInv _; simpa [applyRemoves] using hInv
  | cons x xs ih =>
    intro hist a hInv hval
    have hx : x < len := hval x (by simp)
    have hstep := argsInvStep len hist a x hInv hx
    have := ih (hist ++ [x]) (a.remove x) hstep (fun ix hix => hval ix (by simp [hix]))
    simpa [applyRemoves, List.foldl_cons] using this

/-- C3: starting from construction (all-false bitmap, `remaining` equal to
the token count, sentinel `head`), any sequence of in-range `remove` calls
keeps `remaining` equal to the number of false bitmap entries and keeps
`head` equal to the smallest index ever removed (the sentinel when none was);
removing an already-removed index is a no-op. -/
theorem claimC3RemoveInvariant (vec : List Arg) (ixs : List Nat)
    (hval : ∀ ix ∈ ixs, ix < vec.length) (hlen : vec.length ≤ USIZE_MAX) :
    ((Args.fromVec vec).removed = List.replicate vec.length false
      ∧ (Args.fromVec vec).remaining = vec.length
      ∧ (Args.fromVec vec).head = USIZE_MAX)
  ∧ (applyRemoves (Args.fromVec vec) ixs).remaining
      = countFalse (applyRemoves (Args.fromVec vec) ixs).removed
  ∧ (applyRemoves (Args.fromVec vec) ixs).head = ixs.foldl min USIZE_MAX
  ∧ (∀ ix ∈ ixs, (applyRemoves (Args.fromVec vec) ixs).head ≤ ix)
  ∧ (ixs = [] → (applyRemoves (Args.fromVec vec) ixs).head = USIZE_MAX)
  ∧ (ixs ≠ [] → (applyRemoves (Args.fromVec vec) ixs).head ∈ ixs)
  ∧ (∀ (b : Args) (ix : Nat), b.removed.getD ix true = true → b.remove ix = b) := by
  have hbase : ArgsInv vec.length [] (Args.fromVec vec) := by
    refine ⟨by simp [Args.fromVec], ?_, ?_, by simp [Args.fromVec]⟩
    · intro i hi
      simp only [Args.fromVec]
      rw [getDReplicateFalse vec.length i hi]
      simp
    · simp only [Args.fromVec, countFalse]
      rw [List.count_replicate]
      simp
  have hfold := argsInvFold vec.length ixs [] (Args.fromVec vec) hbase hval
  simp only [List.nil_append] at hfold
  obtain ⟨hflen, hfmem, hfcount, hfhead⟩ := hfold
  refine ⟨⟨rfl, rfl, rfl⟩, hfcount, hfhead, ?_, ?_, ?_, ?_⟩
  · intro ix hix
    rw [hfhead]
    exact foldlMinLeMem ixs USIZE_MAX ix hix
  · intro hnil
    subst hnil
    rw [hfhead]
    rfl
  · intro hne
    rw [hfhead]
    rcases foldlMinMemOr ixs USIZE_MAX with h | h
    · exfalso
      rcases List.exists_mem_of_ne_nil ixs hne with ⟨x, hx⟩
      have h1 := foldlMinLeMem ixs USIZE_MAX x hx
      have h2 := hval x hx
      omega
    · exact h
  · exact removeNoop

/-! ### Splitting and dash-stripping lemmas -/

theorem splitOnceEqAppend (key val : Str) (h : '=' ∉ key) :
    splitOnceEq (key ++ '=' :: val) = some (key, val) := by
  induction key with
  | nil => simp [splitOnceEq]
  | cons c ks ih =>
    have hc : c ≠ '=' := by intro hc; exact h (by simp [hc])
    have hk : '=' ∉ ks := by intro hk; exact h (by simp [hk])
    simp [splitOnceEq, hc, ih hk]

theorem splitOnceEqNone (l : Str) (h : '=' ∉ l) : splitOnceEq l = none := by
  induction l with
  | nil => rfl
  | cons c ks ih =>
    have hc : c ≠ '=' := by intro hc; exact h (by simp [hc])
    have hk : '=' ∉ ks := by intro hk; exact h (by simp [hk])
    simp [splitOnceEq, hc, ih hk]

theorem stripDashDashConsNe (c : Char) (r : Str) (h : c ≠ '-') :
    stripDashDash (c :: r) = none := by
  cases r with
  | nil => rfl
  | cons c2 r2 => simp [stripDashDash, h]

theorem stripDashDashSndNe (c : Char) (r : Str) (h : c ≠ '-') :
    stripDashDash ('-' :: c :: r) = none := by
  simp [stripDashDash, h]

theorem stripDashConsNe (c : Char) (r : Str) (h : c ≠ '-') :
    stripDash (c :: r) = none := by
  simp [stripDash, h]


/-- C7: a decodable argument `-body` (single leading dash, not `--`, no `=`
in the body) emits one `Short` token per character of the body, in order;
the empty body (a bare `-`) emits no token. -/
theorem claimC7ShortFlags (body : Str) (vec : List Arg) (hnoeq : '=' ∉ body)
    (hnodash : ∀ c r, body = c :: r → c ≠ '-') :
    push_vec vec (OsString.valid ('-' :: body)) false
      = some (vec ++ body.map Arg.short, false) := by
  have hne : ('-' :: body) ≠ ['-', '-'] := by
    intro h
    injection h with h1 h2
    cases body with
    | nil => simp at h2
    | cons c r =>
      injection h2 with h3 h4
      exact (hnodash c r rfl) h3
  have hdd : stripDashDash ('-' :: body) = none := by
    cases body with
    | nil => rfl
    | cons c r => exact stripDashDashSndNe c r (hnodash c r rfl)
  have hsd : stripDash ('-' :: body) = some body := rfl
  simp only [push_vec, OsString.toStr]
  rw [if_neg hne, hdd, hsd]
  simp only [splitOnceEqNone body hnoeq]

/-- C6: a decodable argument `--key=value` (where the key holds no `=`)
splits at the first `=` and emits `Long key` then a `Word` whose text and
OS form are both the value; in particular `--k=` yields `Long "k"` then an
empty word and `--k=-1` carries the value `-1` uninterpreted. -/
theorem claimC6LongEq (key val : Str) (vec : List Arg) (hk : '=' ∉ key) :
    (push_vec vec (OsString.valid ('-' :: '-' :: (key ++ '=' :: val))) false
      = some (vec ++ [Arg.long key, Arg.word ⟨some val, OsString.valid val⟩], false))
  ∧ tokenize [OsString.valid ['-', '-', 'k', '=']]
      = some [Arg.long ['k'], Arg.word ⟨some [], OsString.valid []⟩]
  ∧ tokenize [OsString.valid ['-', '-', 'k', '=', '-', '1']]
      = some [Arg.long ['k'],
              Arg.word ⟨some ['-', '1'], OsString.valid ['-', '1']⟩] := by
  refine ⟨?_, by decide, by decide⟩
  have hne : ('-' :: '-' :: (key ++ '=' :: val)) ≠ ['-', '-'] := by
    intro h
    injection h with h1 h2
    injection h2 with h3 h4
    cases key with
    | nil => simp at h4
    | cons c r => simp at h4
  have hdd : stripDashDash ('-' :: '-' :: (key ++ '=' :: val))
      = some (key ++ '=' :: val) := by
    simp [stripDashDash]
  simp only [push_vec, OsString.toStr]
  rw [if_neg hne, hdd]
  simp only [splitOnceEqAppend key val hk]

/-- C5 (amended): for a decodable argument `-key=value` (key holding no `=`
and not beginning with `-`), the single-character assertion measures the
key's UTF-8 byte length: a one-byte key `k` emits `Short k` then the value
word, while any key whose byte length differs from one — the empty key, a
multi-character key, or a single multi-byte character — trips the
assertion (a panic, modelled as `none`). -/
theorem claimC5ShortKeyByteLen (key val : Str) (vec : List Arg) (hk : '=' ∉ key)
    (hd : ∀ c r, key = c :: r → c ≠ '-') :
    (∀ k, key = [k] → k.utf8Size = 1 →
      push_vec vec (OsString.valid ('-' :: (key ++ '=' :: val))) false
        = some (vec ++ [Arg.short k, Arg.word ⟨some val, OsString.valid val⟩], false))
  ∧ (utf8Len key ≠ 1 →
      push_vec vec (OsString.valid ('-' :: (key ++ '=' :: val))) false = none) := by
  constructor
  · intro k hkey hsz
    subst hkey
    have hc : k ≠ '-' := hd k [] rfl
    have hne : ('-' :: ([k] ++ '=' :: val)) ≠ ['-', '-'] := by
      intro h
      injection h with h1 h2
      injection h2 with h3 h4
      exact hc h3
    have hdd : stripDashDash ('-' :: ([k] ++ '=' :: val)) = none :=
      stripDashDashSndNe k ('=' :: val) hc
    have hsd : stripDash ('-' :: ([k] ++ '=' :: val)) = some ([k] ++ '=' :: val) := rfl
    have hsp : splitOnceEq ([k] ++ '=' :: val) = some ([k], val) :=
      splitOnceEqAppend [k] val hk
    have hlen : utf8Len [k] = 1 := by simp [utf8Len, hsz]
    simp only [push_vec, OsString.toStr]
    rw [if_neg hne, hdd, hsd]
    simp only [hsp, hlen, if_pos]
  · intro hlen
    have hne : ('-' :: (key ++ '=' :: val)) ≠ ['-', '-'] := by
      intro h
      injection h with h1 h2
      cases key with
      | nil => simp at h2
      | cons c r =>
        injection h2 with h3 h4
        exact (hd c r rfl) h3
    have hdd : stripDashDash ('-' :: (key ++ '=' :: val)) = none := by
      cases key with
      | nil => exact stripDashDashSndNe '=' val (by decide)
      | cons c r => exact stripDashDashSndNe c (r ++ '=' :: val) (hd c r rfl)
    have hsd : stripDash ('-' :: (key ++ '=' :: val)) = some (key ++ '=' :: val) := rfl
    simp only [push_vec, OsString.toStr]
    rw [if_neg hne, hdd, hsd]
    simp only [splitOnceEqAppend key val hk, hlen, if_neg]
    simp

/-- C5 counterexample: `é` is a single character, yet tokenizing `-é=x`
trips the assertion (its UTF-8 encoding is two bytes), instead of emitting
`Short 'é'` then the value word as the claim predicts. -/
theorem claimC5SingleCharCex :
    (['é'].length = 1)
  ∧ push_vec [] (OsString.valid ['-', 'é', '=', 'x']) false = none
  ∧ push_vec [] (OsString.valid ['-', 'é', '=', 'x']) false
      ≠ some ([Arg.short 'é', Arg.word ⟨some ['x'], OsString.valid ['x']⟩], false) := by
  refine ⟨rfl, by decide, by decide⟩

theorem pushVecPosOnlyTrue (vec : List Arg) (os : OsString) :
    push_vec vec os true = some (vec ++ [Arg.word ⟨os.toStr, os⟩], true) := by
  cases os <;> rfl

theorem pushVecKeepsFalse (vec : List Arg) (os : OsString) (r : List Arg × Bool)
    (hne : os.toStr ≠ some ['-', '-'])
    (hp : push_vec vec os false = some r) : r.2 = false := by
  cases os with
  | invalid b =>
    simp only [push_vec, OsString.toStr, Option.some.injEq] at hp
    rw [← hp]
  | valid t =>
    have ht : t ≠ ['-', '-'] := by
      intro h
      exact hne (by rw [h]; rfl)
    simp only [push_vec, OsString.toStr] at hp
    rw [if_neg ht] at hp
    repeat' split at hp
    all_goals (first
      | (simp only [Option.some.injEq] at hp; rw [← hp])
      | simp at hp)

theorem tokenizeFromAppend (xs ys : List OsString) :
    ∀ (posOnly : Bool) (vec : List Arg),
      tokenizeFrom posOnly vec (xs ++ ys)
        = (tokenizeFrom posOnly vec xs).bind (fun r => tokenizeFrom r.2 r.1 ys) := by
  induction xs with
  | nil => intro p vec; simp [tokenizeFrom]
  | cons x xs ih =>
    intro p vec
    simp only [List.cons_append, tokenizeFrom]
    cases h : push_vec vec x p with
    | none => simp
    | some r => simp [ih]

theorem tokenizeFromFalseKeeps (xs : List OsString) :
    ∀ (vec : List Arg) (r : List Arg × Bool),
      (∀ x ∈ xs, x.toStr ≠ some ['-', '-']) →
      tokenizeFrom false vec xs = some r → r.2 = false := by
  induction xs with
  | nil =>
    intro vec r _ h
    simp only [tokenizeFrom, Option.some.injEq] at h
    rw [← h]
  | cons x xs ih =>
    intro vec r hne h
    simp only [tokenizeFrom] at h
    cases hp : push_vec vec x false with
    | none => rw [hp] at h; simp at h
    | some r1 =>
      rw [hp] at h
      dsimp only at h
      have h2 : r1.2 = false := pushVecKeepsFalse vec x r1 (hne x (by simp)) hp
      rw [h2] at h
      exact ih r1.1 r (fun y hy => hne y (by simp [hy])) h

theorem tokenizeFromTrueAll (ys : List OsString) :
    ∀ vec : List Arg,
      tokenizeFrom true vec ys
        = some (vec ++ ys.map (fun os => Arg.word ⟨os.toStr, os⟩), true) := by
  induction ys with
  | nil => intro vec; simp [tokenizeFrom]
  | cons y ys ih =>
    intro vec
    simp only [tokenizeFrom, pushVecPosOnlyTrue]
    rw [ih]
    simp

/-- C4: the first decodable raw argument equal to `--` emits no token and
switches the tokenizer into positional-only mode; every raw argument after
it becomes exactly one `Word` carrying its OS bytes (and its text when
decodable), with no flag interpretation. -/
theorem claimC4DoubleDash (xs ys : List OsString) (vec : List Arg)
    (hnodd : ∀ x ∈ xs, x.toStr ≠ some ['-', '-'])
    (hxs : tokenize xs = some vec) :
    tokenize (xs ++ (OsString.valid ['-', '-'] :: ys))
      = some (vec ++ ys.map (fun os => Arg.word ⟨os.toStr, os⟩)) := by
  unfold tokenize at hxs ⊢
  cases hfx : tokenizeFrom false [] xs with
  | none => rw [hfx] at hxs; simp at hxs
  | some r =>
    rw [hfx] at hxs
    simp at hxs
    have hr2 : r.2 = false := tokenizeFromFalseKeeps xs [] r hnodd hfx
    rw [tokenizeFromAppend, hfx]
    have hstep : tokenizeFrom r.2 r.1 (OsString.valid ['-', '-'] :: ys)
        = some (r.1 ++ ys.map (fun os => Arg.word ⟨os.toStr, os⟩), true) := by
      rw [hr2]
      simp only [tokenizeFrom]
      have hpv : push_vec r.1 (OsString.valid ['-', '-']) false = some (r.1, true) := rfl
      rw [hpv]
      dsimp only
      exact tokenizeFromTrueAll ys r.1
    simp only [Option.some_bind]
    rw [hstep]
    simp [hxs]

theorem stablePush (t : Arg) (s : Str) (vec : List Arg)
    (hstable : stableArg t = true) (hdisp : t.display = some s) :
    push_vec vec (OsString.valid s) false = some (vec ++ [t], false) := by
  cases t with
  | short c =>
    simp only [stableArg, decide_eq_true_eq] at hstable
    obtain ⟨hc1, hc2⟩ := hstable
    simp only [Arg.display, Option.some.injEq] at hdisp
    subst hdisp
    have hne : ['-', c] ≠ ['-', '-'] := by
      intro h
      injection h with h1 h2
      injection h2 with h3 h4
      exact hc1 h3
    have hdd : stripDashDash ['-', c] = none := stripDashDashSndNe c [] hc1
    have hsd : stripDash ['-', c] = some [c] := rfl
    have hsp : splitOnceEq [c] = none := splitOnceEqNone [c] (by simp; exact fun h => hc2 h.symm)
    simp only [push_vec, OsString.toStr]
    rw [if_neg hne, hdd, hsd]
    simp only [hsp]
    rfl
  | long l =>
    simp only [stableArg, decide_eq_true_eq] at hstable
    obtain ⟨hl, he⟩ := hstable
    simp only [Arg.display, Option.some.injEq] at hdisp
    subst hdisp
    have hne : ('-' :: '-' :: l) ≠ ['-', '-'] := by
      intro h
      injection h with h1 h2
      injection h2 with h3 h4
      exact hl h4
    have hdd : stripDashDash ('-' :: '-' :: l) = some l := by simp [stripDashDash]
    simp only [push_vec, OsString.toStr]
    rw [if_neg hne, hdd]
    simp only [splitOnceEqNone l he]
  | word w =>
    rcases w with ⟨u, os⟩
    cases u with
    | none => simp [stableArg] at hstable
    | some t0 =>
      cases os with
      | invalid b => simp [stableArg] at hstable
      | valid t2 =>
        simp only [stableArg, Bool.and_eq_true, decide_eq_true_eq] at hstable
        obtain ⟨ht02, hhead⟩ := hstable
        subst ht02
        simp only [Arg.display, Option.some.injEq] at hdisp
        subst hdisp
        have hnodash : ∀ c r, t0 = c :: r → c ≠ '-' := by
          intro c r hcr hc
          subst hcr
          subst hc
          simp at hhead
        have hne : t0 ≠ ['-', '-'] := by
          intro h
          exact hnodash '-' ['-'] h rfl
        have hdd : stripDashDash t0 = none := by
          cases t0 with
          | nil => rfl
          | cons c r => exact stripDashDashConsNe c r (hnodash c r rfl)
        have hsd : stripDash t0 = none := by
          cases t0 with
          | nil => rfl
          | cons c r => exact stripDashConsNe c r (hnodash c r rfl)
        simp only [push_vec, OsString.toStr]
        rw [if_neg hne, hdd, hsd]

theorem stableRoundtrip (ts : List Arg) :
    ∀ vec : List Arg, (∀ t ∈ ts, stableArg t = true) →
      ∃ ss, renderArgs ts = some ss
        ∧ tokenizeFrom false vec (ss.map OsString.valid) = some (vec ++ ts, false) := by
  induction ts with
  | nil => intro vec _; exact ⟨[], rfl, by simp [tokenizeFrom]⟩
  | cons t ts ih =>
    intro vec hall
    have hst : stableArg t = true := hall t (by simp)
    have hdisp : ∃ s, t.display = some s := by
      cases t with
      | short c => exact ⟨_, rfl⟩
      | long l => exact ⟨_, rfl⟩
      | word w =>
        rcases w with ⟨u, os⟩
        cases u with
        | none => simp [stableArg] at hst
        | some t0 => exact ⟨t0, rfl⟩
    rcases hdisp with ⟨s, hs⟩
    rcases ih (vec ++ [t]) (fun u hu => hall u (by simp [hu])) with ⟨ss, hr, htf⟩
    refine ⟨s :: ss, ?_, ?_⟩
    · simp only [renderArgs, hs, hr]
    · simp only [List.map_cons, tokenizeFrom]
      rw [stablePush t s vec hst hs]
      dsimp only
      rw [htf]
      simp

/-- C9 (amended): tokenization is a pure function of the raw argument
sequence, and re-tokenizing the rendered token sequence reproduces it for
stable tokens: shorts other than `-`/`=`, nonempty `=`-free longs, and
words with matching text/OS forms not beginning with a dash.  (Words
behind `--` may begin with a dash and then re-tokenize as flags.) -/
theorem claimC9RenderRoundtrip (ts : List Arg) (h : ∀ t ∈ ts, stableArg t = true) :
    retokenizeRendered ts = some ts := by
  rcases stableRoundtrip ts [] h with ⟨ss, hr, htf⟩
  unfold retokenizeRendered tokenize
  rw [hr]
  simp only [Option.some_bind]
  rw [htf]
  simp

/-- C9 counterexample: `["--","-x"]` tokenizes to the single word `-x`,
whose rendering re-tokenizes to `Short x`, not to the original word — the
round trip fails on tokenizable text-only input, refuting the claim as
stated. -/
theorem claimC9RoundtripCex :
    tokenize [OsString.valid ['-', '-'], OsString.valid ['-', 'x']]
      = some [Arg.word ⟨some ['-', 'x'], OsString.valid ['-', 'x']⟩]
  ∧ renderArgs [Arg.word ⟨some ['-', 'x'], OsString.valid ['-', 'x']⟩]
      = some [['-', 'x']]
  ∧ tokenize [OsString.valid ['-', 'x']] = some [Arg.short 'x']
  ∧ retokenizeRendered [Arg.word ⟨some ['-', 'x'], OsString.valid ['-', 'x']⟩]
      = some [Arg.short 'x']
  ∧ ([Arg.short 'x'] ≠ [Arg.word ⟨some ['-', 'x'], OsString.valid ['-', 'x']⟩]) := by
  refine ⟨by decide, by decide, by decide, by decide, by decide⟩

/-- Concrete instance of C7: `-abc` is three shorts and a bare `-` emits nothing. -/
theorem claimC7Witness :
    push_vec [] (OsString.valid ['-', 'a', 'b', 'c']) false
      = some ([Arg.short 'a', Arg.short 'b', Arg.short 'c'], false)
  ∧ push_vec [] (OsString.valid ['-']) false = some ([], false) :=
  ⟨claimC7ShortFlags ['a', 'b', 'c'] [] (by decide)
      (by intro c r h; injection h with h1 h2; subst h1; decide),
   claimC7ShortFlags [] [] (by decide)
      (by intro c r h; exact absurd h (by simp))⟩

/-- Concrete instance of C6: `--k=v` is `Long "k"` then the word `v`. -/
theorem claimC6Witness :
    push_vec [] (OsString.valid ['-', '-', 'k', '=', 'v']) false
      = some ([Arg.long ['k'], Arg.word ⟨some ['v'], OsString.valid ['v']⟩], false) :=
  (claimC6LongEq ['k'] ['v'] [] (by decide)).1

/-- Concrete instances of the amended C5: a one-byte key succeeds, a two-character key panics. -/
theorem claimC5Witness :
    push_vec [] (OsString.valid ['-', 'k', '=', '9']) false
      = some ([Arg.short 'k', Arg.word ⟨some ['9'], OsString.valid ['9']⟩], false)
  ∧ push_vec [] (OsString.valid ['-', 'a', 'b', '=', '9']) false = none :=
  ⟨(claimC5ShortKeyByteLen ['k'] ['9'] [] (by decide)
      (by intro c r h; injection h with h1 h2; subst h1; decide)).1 'k' rfl (by decide),
   (claimC5ShortKeyByteLen ['a', 'b'] ['9'] [] (by decide)
      (by intro c r h; injection h with h1 h2; subst h1; decide)).2 (by decide)⟩

/-- Concrete instance of C4: after `--`, `-x` is a plain word. -/
theorem claimC4Witness :
    tokenize [OsString.valid ['-', 'v'], OsString.valid ['-', '-'], OsString.valid ['-', 'x']]
      = some [Arg.short 'v', Arg.word ⟨some ['-', 'x'], OsString.valid ['-', 'x']⟩] :=
  claimC4DoubleDash [OsString.valid ['-', 'v']] [OsString.valid ['-', 'x']]
    [Arg.short 'v'] (by decide) (by decide)

/-- Concrete instance of the amended C9 on a stable token list. -/
theorem claimC9Witness :
    retokenizeRendered
        [Arg.short 'a', Arg.long ['b', 'c'],
         Arg.word ⟨some ['w'], OsString.valid ['w']⟩]
      = some [Arg.short 'a', Arg.long ['b', 'c'],
              Arg.word ⟨some ['w'], OsString.valid ['w']⟩] :=
  claimC9RenderRoundtrip _ (by decide)

/-- Concrete instances of C1: `--s 1` succeeds consuming both tokens; a bare `--s` fails fatally. -/
theorem claimC1Witness :
    (∃ a2,
      (Args.fromVec [Arg.long ['s'], Arg.word ⟨some ['1'], OsString.valid ['1']⟩]).take_arg
          (fun g => g.is_long ['s'])
        = some (Except.ok (some ⟨some ['1'], OsString.valid ['1']⟩), a2)
      ∧ a2 = (({ Args.fromVec [Arg.long ['s'], Arg.word ⟨some ['1'], OsString.valid ['1']⟩] with
                  current := some ⟨some ['1'], OsString.valid ['1']⟩ }).remove 0).remove 1
      ∧ a2.items
          = (Args.fromVec [Arg.long ['s'], Arg.word ⟨some ['1'], OsString.valid ['1']⟩]).items
      ∧ a2.current = some ⟨some ['1'], OsString.valid ['1']⟩
      ∧ a2.removed
          = (((Args.fromVec [Arg.long ['s'],
                Arg.word ⟨some ['1'], OsString.valid ['1']⟩]).removed.set 0 true).set 1 true)
      ∧ a2.removed.getD 0 true = true
      ∧ a2.removed.getD 1 true = true
      ∧ a2.remaining
          = (Args.fromVec [Arg.long ['s'],
              Arg.word ⟨some ['1'], OsString.valid ['1']⟩]).remaining - 2)
  ∧ (Args.fromVec [Arg.long ['s']]).take_arg (fun g => g.is_long ['s'])
      = some (Except.error
          (Error.Stderr (['-', '-', 's'] ++ (" requires an argument").data)),
        Args.fromVec [Arg.long ['s']]) :=
  ⟨(claimC1TakeArg (Args.fromVec [Arg.long ['s'], Arg.word ⟨some ['1'], OsString.valid ['1']⟩])
      (fun g => g.is_long ['s'])).2.1 0 (Arg.long ['s']) 1
      ⟨some ['1'], OsString.valid ['1']⟩ [] (by decide),
   (claimC1TakeArg (Args.fromVec [Arg.long ['s']])
      (fun g => g.is_long ['s'])).2.2.2 0 (Arg.long ['s']) ['-', '-', 's'] (by decide) rfl⟩

/-- Concrete instances of C2: each primitive leaves the buffer intact on failure. -/
theorem claimC2Witness :
    ((Args.fromVec [Arg.short 'a']).take_flag (fun g => g.is_short 'z')
        = (false, { items := [Arg.short 'a'], removed := [false], remaining := 1,
                    current := none, head := USIZE_MAX })
      ∧ ({ items := [Arg.short 'a'], removed := [false], remaining := 1,
           current := none, head := USIZE_MAX } : Args) = Args.fromVec [Arg.short 'a'])
  ∧ ((Args.fromVec [Arg.short 'a']).take_arg (fun g => g.is_short 'z')
        = some (Except.ok none,
            { items := [Arg.short 'a'], removed := [false], remaining := 1,
              current := none, head := USIZE_MAX })
      ∧ ({ items := [Arg.short 'a'], removed := [false], remaining := 1,
           current := none, head := USIZE_MAX } : Args) = Args.fromVec [Arg.short 'a'])
  ∧ ((Args.fromVec [Arg.long ['s']]).take_arg (fun g => g.is_long ['s'])
        = some (Except.error
            (Error.Stderr (['-', '-', 's'] ++ (" requires an argument").data)),
            { items := [Arg.long ['s']], removed := [false], remaining := 1,
              current := none, head := USIZE_MAX })
      ∧ ({ items := [Arg.long ['s']], removed := [false], remaining := 1,
           current := none, head := USIZE_MAX } : Args) = Args.fromVec [Arg.long ['s']])
  ∧ ((Args.fromVec []).take_positional_word
        = some (Except.ok none,
            { items := [], removed := [], remaining := 0,
              current := none, head := USIZE_MAX })
      ∧ ({ items := [], removed := [], remaining := 0,
           current := none, head := USIZE_MAX } : Args) = Args.fromVec [])
  ∧ ((Args.fromVec [Arg.short 'x']).take_positional_word
        = some (Except.error
            (Error.Stderr (("Expected an argument, got ").data ++ ['-', 'x'])),
            { items := [Arg.short 'x'], removed := [false], remaining := 1,
              current := none, head := USIZE_MAX })
      ∧ ({ items := [Arg.short 'x'], removed := [false], remaining := 1,
           current := none, head := USIZE_MAX } : Args) = Args.fromVec [Arg.short 'x'])
  ∧ ((Args.fromVec [Arg.word ⟨some ['y'], OsString.valid ['y']⟩]).take_cmd ['n']
        = (false, { items := [Arg.word ⟨some ['y'], OsString.valid ['y']⟩],
                    removed := [false], remaining := 1, current := none, head := USIZE_MAX })
      ∧ ({ items := [Arg.word ⟨some ['y'], OsString.valid ['y']⟩], removed := [false],
           remaining := 1, current := none, head := USIZE_MAX } : Args)
          = Args.fromVec [Arg.word ⟨some ['y'], OsString.valid ['y']⟩]) :=
  ⟨⟨by rfl, claimC2FailureUnchanged.1 (Args.fromVec [Arg.short 'a'])
      (fun g => g.is_short 'z')
      { items := [Arg.short 'a'], removed := [false], remaining := 1,
        current := none, head := USIZE_MAX } (by rfl)⟩,
   ⟨by rfl, claimC2FailureUnchanged.2.1 (Args.fromVec [Arg.short 'a'])
      (fun g => g.is_short 'z')
      { items := [Arg.short 'a'], removed := [false], remaining := 1,
        current := none, head := USIZE_MAX } (by rfl)⟩,
   ⟨by rfl, claimC2FailureUnchanged.2.2.1 (Args.fromVec [Arg.long ['s']])
      (fun g => g.is_long ['s'])
      (Error.Stderr (['-', '-', 's'] ++ (" requires an argument").data))
      { items := [Arg.long ['s']], removed := [false], remaining := 1,
        current := none, head := USIZE_MAX } (by rfl)⟩,
   ⟨by rfl, claimC2FailureUnchanged.2.2.2.1 (Args.fromVec [])
      { items := [], removed := [], remaining := 0,
        current := none, head := USIZE_MAX } (by rfl)⟩,
   ⟨by rfl, claimC2FailureUnchanged.2.2.2.2.1 (Args.fromVec [Arg.short 'x'])
      (Error.Stderr (("Expected an argument, got ").data ++ ['-', 'x']))
      { items := [Arg.short 'x'], removed := [false], remaining := 1,
        current := none, head := USIZE_MAX } (by rfl)⟩,
   ⟨by rfl, claimC2FailureUnchanged.2.2.2.2.2
      (Args.fromVec [Arg.word ⟨some ['y'], OsString.valid ['y']⟩]) ['n']
      { items := [Arg.word ⟨some ['y'], OsString.valid ['y']⟩], removed := [false],
        remaining := 1, current := none, head := USIZE_MAX } (by rfl)⟩⟩

/-- Concrete instance of C3 with a repeated removal of index 0. -/
theorem claimC3Witness :
    ((Args.fromVec [Arg.short 'a']).removed = List.replicate 1 false
      ∧ (Args.fromVec [Arg.short 'a']).remaining = 1
      ∧ (Args.fromVec [Arg.short 'a']).head = USIZE_MAX)
  ∧ (applyRemoves (Args.fromVec [Arg.short 'a']) [0, 0]).remaining
      = countFalse (applyRemoves (Args.fromVec [Arg.short 'a']) [0, 0]).removed
  ∧ (applyRemoves (Args.fromVec [Arg.short 'a']) [0, 0]).head
      = ([0, 0] : List Nat).foldl min USIZE_MAX :=
  ⟨(claimC3RemoveInvariant [Arg.short 'a'] [0, 0] (by decide) (by decide)).1,
   (claimC3RemoveInvariant [Arg.short 'a'] [0, 0] (by decide) (by decide)).2.1,
   (claimC3RemoveInvariant [Arg.short 'a'] [0, 0] (by decide) (by decide)).2.2.1⟩

/-- Concrete instances of C8: word first, flag first, and empty buffer. -/
theorem claimC8Witness :
    (Args.fromVec [Arg.word ⟨some ['w'], OsString.valid ['w']⟩, Arg.short 'z']).take_positional_word
        = some (Except.ok (some ⟨some ['w'], OsString.valid ['w']⟩),
            ({ Args.fromVec [Arg.word ⟨some ['w'], OsString.valid ['w']⟩, Arg.short 'z'] with
                current := some ⟨some ['w'], OsString.valid ['w']⟩ }).remove 0)
  ∧ (Args.fromVec [Arg.short 'z']).take_positional_word
        = some (Except.error
            (Error.Stderr (("Expected an argument, got ").data ++ ['-', 'z'])),
          Args.fromVec [Arg.short 'z'])
  ∧ (Args.fromVec []).take_positional_word = some (Except.ok none, Args.fromVec []) :=
  ⟨(claimC8TakePositional
      (Args.fromVec [Arg.word ⟨some ['w'], OsString.valid ['w']⟩, Arg.short 'z'])).1
      0 ⟨some ['w'], OsString.valid ['w']⟩ [(1, Arg.short 'z')] (by decide),
   (claimC8TakePositional (Args.fromVec [Arg.short 'z'])).2.1
      0 (Arg.short 'z') [] ['-', 'z'] (by decide) (by intro w h; cases h) rfl,
   (claimC8TakePositional (Args.fromVec [])).2.2.1 (by decide)⟩

/-- Concrete instances of C10: matching word, non-UTF-8 word, and non-matching word. -/
theorem claimC10Witness :
    (Args.fromVec [Arg.word ⟨some ['c'], OsString.valid ['c']⟩]).take_cmd ['c']
        = (true, (Args.fromVec [Arg.word ⟨some ['c'], OsString.valid ['c']⟩]).remove 0)
  ∧ ((Args.fromVec [Arg.word ⟨none, OsString.invalid [255]⟩]).take_cmd ['c']).1 = false
  ∧ ((Args.fromVec [Arg.word ⟨some ['y'], OsString.valid ['y']⟩]).take_cmd ['z']).2
      = Args.fromVec [Arg.word ⟨some ['y'], OsString.valid ['y']⟩] :=
  ⟨(claimC10TakeCmd (Args.fromVec [Arg.word ⟨some ['c'], OsString.valid ['c']⟩]) ['c']).2.1
      0 ⟨some ['c'], OsString.valid ['c']⟩ [] (by decide) rfl,
   (claimC10TakeCmd (Args.fromVec [Arg.word ⟨none, OsString.invalid [255]⟩]) ['c']).2.2.2
      0 ⟨none, OsString.invalid [255]⟩ [] (by decide) rfl,
   (claimC10TakeCmd (Args.fromVec [Arg.word ⟨some ['y'], OsString.valid ['y']⟩]) ['z']).2.2.1
      (by decide)⟩
